import Mathlib

/-!
# Verification of the `hxcvtr-file-cache` crate

A shallow embedding of the crate's data model and operations, translated
from the Rust source (`lib.rs`, `full_cache.rs`, `swap_cache.rs`,
`auto_cache.rs`, `cache_reader.rs`), together with theorems settling the
specification claims.

Modelling conventions:
* Bytes are `Nat`; a byte source is a `List Nat` (its length is the
  source length `L`).  A well-behaved source's `read` fills the buffer
  with `min (buffer length) (L - position)` bytes starting at the current
  position and leaves the remaining buffer bytes untouched (Rust `File`
  semantics with short reads only at end of file); `seek` never fails.
  Where a claim is about failing sources, a `Source` record carries
  explicit success flags for its operations.
* `u64`/`usize` values are `Nat`; wrapping is modelled with an explicit
  `% 2 ^ 64` at the one place the code can overflow
  (`CacheReader::seek`, `SeekFrom::Current` with a positive offset).
* Visitors (Rust `FnMut(&[u8]) -> Result<()>`) are state-threading
  functions `sigma -> List Nat -> sigma * Option E`: the returned state
  models the closure's captured mutable state (which is updated even
  when the closure returns `Err`), and `some e` models `Err(e)`.
* The mutex in `SwapCache` is modelled away: execution is single
  threaded, so locking always succeeds and `Poison` errors cannot arise.
* Traversal loops take an explicit fuel argument; `none` models
  non-termination, a Rust panic (`unreachable!()`, slice-range panic or
  Vec index out of bounds) or fuel exhaustion.  Theorems about states
  reached by traversal are conditioned on a `some` result.
-/

namespace FileCache

/-- Error type of the crate (`lib.rs`, `enum Error`).  The payload of the
`IO` variant (`std::io::Error`) is not modelled; `Poison` and `ZeroCache`
carry their message strings. -/
inductive CacheErr where
  | io : CacheErr
  | poison (msg : String) : CacheErr
  | zeroCache (msg : String) : CacheErr
deriving DecidableEq, Inhabited

/-- The sentinel index `NULL` (`swap_cache.rs`: `const NULL: usize =
std::usize::MAX`), on a 64-bit target. -/
def NULL : Nat := 2 ^ 64 - 1

/-- One page frame (`swap_cache.rs`, `struct Frame`). -/
structure Frame where
  data : List Nat
  page : Nat
  next : Nat
  prev : Nat
deriving DecidableEq, Inhabited

/-- The interior state of a swap cache (`swap_cache.rs`,
`struct SwapCacheImpl`).  The `HashMap<u64, usize>` is modelled as an
association list with unique keys; the source is a well-behaved byte
source, so no explicit read position is needed (every read in
`SwapCacheImpl` happens at a known absolute offset, see `swapImplNew`). -/
structure SwapCacheImpl where
  page_sz : Nat
  source : List Nat
  frames : List Frame
  map : List (Nat × Nat)
  front : Nat
  back : Nat
deriving DecidableEq, Inhabited

/-- `HashMap` lookup on the association-list model. -/
def mlookup : List (Nat × Nat) → Nat → Option Nat
  | [], _ => none
  | e :: rest, k => if e.1 = k then some e.2 else mlookup rest k

/-- `HashMap::remove` on the association-list model: drops the (unique)
entry with the given key. -/
def mremove : List (Nat × Nat) → Nat → List (Nat × Nat)
  | [], _ => []
  | e :: rest, k => if e.1 = k then rest else e :: mremove rest k

/-- `HashMap::insert` on the association-list model (replace semantics). -/
def minsert (m : List (Nat × Nat)) (k v : Nat) : List (Nat × Nat) :=
  (k, v) :: mremove m k

/-- Reading from a well-behaved source at absolute position `pos` into a
buffer: the first `min (buf.length) (src.length - pos)` buffer bytes are
replaced by source bytes, the rest of the buffer is left as it was
(`Read::read` filling as much as is available before end of source). -/
def readInto (src : List Nat) (pos : Nat) (buf : List Nat) : List Nat :=
  let k := min buf.length (src.length - pos)
  (src.drop pos).take k ++ buf.drop k

/-- The frame pushed for index `i` by the construction loop of
`SwapCacheImpl::new` (the `frame_count > 1` case): data is read
sequentially (hence from offset `i * page_size`), the resident page is
`i`, and the links follow the source's three-way `if`.  Note the
`i == last` branch sets `next` to `last` itself, exactly as the source
does (`next: last`). -/
def initFrame (src : List Nat) (page_size last i : Nat) : Frame :=
  { data := readInto src (i * page_size) (List.replicate page_size 0),
    page := i,
    next := if i = 0 then NULL else if i = last then last else i - 1,
    prev := if i = 0 then 1 else if i = last then NULL else i + 1 }

/-- `SwapCacheImpl::new` for a well-behaved source (`swap_cache.rs`
lines 28-94): seek to 0, then for each frame insert `i -> i` into the map
and push a frame holding page `i`; finally `front := frame_count - 1`,
`back := 0`.  The map inserts are performed in ascending order of `i`
(as a fold), matching the loop. -/
def swapImplNew (src : List Nat) (page_size frame_count : Nat) : SwapCacheImpl :=
  let last := frame_count - 1
  if frame_count = 1 then
    { page_sz := page_size,
      source := src,
      frames := [{ data := readInto src 0 (List.replicate page_size 0),
                   page := 0, next := NULL, prev := NULL }],
      map := minsert [] 0 0,
      front := last, back := 0 }
  else
    { page_sz := page_size,
      source := src,
      frames := (List.range frame_count).map (initFrame src page_size last),
      map := (List.range frame_count).foldl (fun m i => minsert m i i) [],
      front := last, back := 0 }

/-- Read access to `self.frames[i]` (`Vec` indexing). -/
def SwapCacheImpl.frameAt (st : SwapCacheImpl) (i : Nat) : Frame :=
  st.frames.getD i default

/-- In-place update of `self.frames[i]` (`Vec` index assignment; all call
sites index in bounds under the cache invariant). -/
def updFrame (fs : List Frame) (i : Nat) (g : Frame → Frame) : List Frame :=
  fs.set i (g (fs.getD i default))

/-- The assignment `self.frames[i].next = v`. -/
def setNextF (st : SwapCacheImpl) (i v : Nat) : SwapCacheImpl :=
  { st with frames := updFrame st.frames i (fun f => { f with next := v }) }

/-- The assignment `self.frames[i].prev = v`. -/
def setPrevF (st : SwapCacheImpl) (i v : Nat) : SwapCacheImpl :=
  { st with frames := updFrame st.frames i (fun f => { f with prev := v }) }

/-- The two assignments `frame.prev = p; frame.next = n` of the closure
passed to `map_frame_mut` in `promote_frame`. -/
def setLinksF (st : SwapCacheImpl) (i p n : Nat) : SwapCacheImpl :=
  { st with frames := updFrame st.frames i (fun f => { f with prev := p, next := n }) }

/-- `SwapCacheImpl::promote_frame` (`swap_cache.rs` lines 137-158),
translated statement by statement: unlink `fidx` (updating `front` when
`fidx` has no `prev` neighbor), then splice it after `back` — note that,
exactly as in the source, `self.back` itself is never reassigned. -/
def promote_frame (st : SwapCacheImpl) (fidx : Nat) : SwapCacheImpl :=
  if st.back = st.front then st
  else
    let nxt := (st.frameAt fidx).next
    let prv := (st.frameAt fidx).prev
    if nxt = NULL then st
    else
      let st1 :=
        if prv = NULL then setPrevF { st with front := nxt } nxt NULL
        else setPrevF (setNextF st prv nxt) nxt prv
      let st2 := setNextF st1 st1.back fidx
      setLinksF st2 fidx st2.back NULL

/-- `SwapCacheImpl::load_page` (`swap_cache.rs` lines 112-135) for a
well-behaved source: remove the map entry of the page held by the `front`
frame (`none` models the `unreachable!()` panic when it is absent), read
page `page` into that frame, update its page index and insert the new map
entry.  Returns the updated state; the returned frame index is
`st.front`. -/
def load_page (st : SwapCacheImpl) (page : Nat) : Option SwapCacheImpl :=
  match mlookup st.map (st.frameAt st.front).page with
  | none => none
  | some _ =>
    let m1 := mremove st.map (st.frameAt st.front).page
    let frames1 := updFrame st.frames st.front
      (fun f => { f with data := readInto st.source (page * st.page_sz) f.data,
                         page := page })
    some { st with frames := frames1, map := minsert m1 page st.front }

/-- `SwapCacheImpl::get_chunk` (`swap_cache.rs` lines 160-177): find (or
load) the frame of the page containing `pos`, promote it, and return the
tail of its buffer starting at the intra-page offset. -/
def get_chunk (st : SwapCacheImpl) (pos : Nat) : Option (SwapCacheImpl × List Nat) :=
  let page := pos / st.page_sz
  let fidx0 := match mlookup st.map page with
    | some fidx => fidx
    | none => NULL
  match (if fidx0 = NULL then (load_page st page).map (fun st1 => (st1, st1.front))
         else some (st, fidx0)) with
  | none => none
  | some (st1, fidx) =>
    let st2 := promote_frame st1 fidx
    some (st2, (st2.frameAt fidx).data.drop (pos - page * st2.page_sz))

/-- A `std::ops::Bound<u64>` as used by `RangeBounds`. -/
inductive RBound where
  | incl (n : Nat) : RBound
  | excl (n : Nat) : RBound
  | unbounded : RBound
deriving DecidableEq, Inhabited

/-- Start-bound clamping, common to `FullCache::traverse_chunks` and
`SwapCache::traverse_chunks` (both repeat this exact match on
`range.start_bound()`); `none` models the early `return Ok(())`. -/
def clampStart (len : Nat) : RBound → Option Nat
  | .incl s => if len ≤ s then none else some s
  | .excl s => if len < s + 1 then none else some (s + 1)
  | .unbounded => some 0

/-- End-bound clamping, common to both `traverse_chunks`
implementations (the exact match on `range.end_bound()`). -/
def clampEnd (len : Nat) : RBound → Nat
  | .incl e => if len ≤ e then len else e + 1
  | .excl e => if len < e then len else e
  | .unbounded => len

/-- The traversal loop of `SwapCache::traverse_chunks` (`swap_cache.rs`
lines 265-275) with an instrumentation trace recording each
`(offset, chunk)` pair passed to the visitor.  Faithful details: the
final chunk (when `new_pos > end`) is truncated to
`chunk[..(new_pos - pos)]` — i.e. not truncated at all — exactly as in
the source, and its visitor result is returned; a mid-loop visitor `Err`
is propagated. -/
def swapLoop {σ E : Type} (endPos : Nat) (f : σ → List Nat → σ × Option E) :
    Nat → SwapCacheImpl → Nat → σ → List (Nat × List Nat) →
    Option (SwapCacheImpl × σ × Option E × List (Nat × List Nat))
  | 0, _, _, _, _ => none
  | fuel + 1, st, pos, s, trace =>
    match get_chunk st pos with
    | none => none
    | some (st1, chunk) =>
      let new_pos := pos + chunk.length
      if endPos < new_pos then
        let c := chunk.take (new_pos - pos)
        let fr := f s c
        some (st1, fr.1, fr.2, trace ++ [(pos, c)])
      else
        let fr := f s chunk
        match fr.2 with
        | some e => some (st1, fr.1, some e, trace ++ [(pos, chunk)])
        | none => swapLoop endPos f fuel st1 new_pos fr.1 (trace ++ [(pos, chunk)])

/-- The public `SwapCache` wrapper (`swap_cache.rs`, `struct SwapCache`):
source length discovered at construction, the allocated cache size, and
the mutex-wrapped interior. -/
structure SwapCache where
  sz : Nat
  cache_sz : Nat
  swap : SwapCacheImpl
deriving DecidableEq, Inhabited

/-- `SwapCache::traverse_chunks` (`swap_cache.rs` lines 238-278): clamp
the bounds against `self.sz`, and if `start < len` run the loop,
otherwise return `Ok` without calling the visitor. -/
def SwapCache.traverse_chunks {σ E : Type} (c : SwapCache) (rs re : RBound)
    (f : σ → List Nat → σ × Option E) (s : σ) (fuel : Nat) :
    Option (SwapCache × σ × Option E × List (Nat × List Nat)) :=
  match clampStart c.sz rs with
  | none => some (c, s, none, [])
  | some start =>
    let endPos := clampEnd c.sz re
    if start < c.sz then
      match swapLoop endPos f fuel c.swap start s [] with
      | none => none
      | some (st1, s1, r, tr) => some ({ c with swap := st1 }, s1, r, tr)
    else some (c, s, none, [])

/-- The default `Cache::read` (`lib.rs` lines 140-151) instantiated for
`SwapCache`.  Faithful details: the traversed range is
`offset..buffer.len()` (exactly as in the source — not
`offset..offset + buffer.len()`), and the visitor adds
`min (buffer.len() - total) chunk.len()` to `total`
(`(&mut buffer[total..]).write(chunk)`, which cannot fail).  Only the
byte count is tracked. -/
def SwapCache.read (c : SwapCache) (offset bufLen : Nat) (fuel : Nat) :
    Option (SwapCache × Except CacheErr Nat) :=
  match c.traverse_chunks (σ := Nat) (E := CacheErr) (.incl offset) (.excl bufLen)
      (fun total chunk => (total + min (bufLen - total) chunk.length, none)) 0 fuel with
  | none => none
  | some (c1, total, none, _) => some (c1, .ok total)
  | some (c1, _, some e, _) => some (c1, .error e)

/-- `FullCache` (`full_cache.rs`): the whole source in one buffer. -/
structure FullCache where
  data : List Nat
deriving DecidableEq, Inhabited

/-- `FullCache::traverse_chunks` (`full_cache.rs` lines 58-102): clamp
the bounds, call the visitor exactly once on `data[start..end]`, discard
its result (`let _ = f(...)`) and return `Ok(())`.  `none` models the
slice panic when `end < start`. -/
def FullCache.traverse_chunks {σ E : Type} (c : FullCache) (rs re : RBound)
    (f : σ → List Nat → σ × Option E) (s : σ) :
    Option (σ × Option E × List (Nat × List Nat)) :=
  let len := c.data.length
  match clampStart len rs with
  | none => some (s, none, [])
  | some start =>
    let endPos := clampEnd len re
    if endPos < start then none
    else
      let chunk := (c.data.drop start).take (endPos - start)
      let fr := f s chunk
      some (fr.1, none, [(start, chunk)])

/-- A byte source together with explicit success flags for its
operations, used by the constructor models: `seekEndOk` is whether
`seek(SeekFrom::End(0))` succeeds, `seekStartOk` whether
`seek(SeekFrom::Start(_))` succeeds, and `readOk` whether `read`
succeeds.  When all flags are `true` the source is well behaved, with
the read semantics of `readInto`. -/
structure Source where
  bytes : List Nat
  seekEndOk : Bool
  seekStartOk : Bool
  readOk : Bool
deriving DecidableEq, Inhabited

/-- `FullCache::new` (`full_cache.rs` lines 26-37): seek to 0, then
`read_to_end`; either failure yields `Error::IO`. -/
def FullCache.new (src : Source) : Except CacheErr FullCache :=
  if src.seekStartOk then
    if src.readOk then .ok ⟨src.bytes⟩ else .error .io
  else .error .io

/-- The fallible-source shell of `SwapCacheImpl::new`: its
`seek(SeekFrom::Start(0))` and its page reads turn into `Error::IO` when
the corresponding source operation fails; otherwise the state is
`swapImplNew`. -/
def swapImplNewChecked (src : Source) (page_size frame_count : Nat) :
    Except CacheErr SwapCacheImpl :=
  if src.seekStartOk then
    if src.readOk then .ok (swapImplNew src.bytes page_size frame_count)
    else .error .io
  else .error .io

/-- `SwapCache::new` (`swap_cache.rs` lines 197-214): first discover the
length by seeking to the end (an I/O failure there is returned
immediately), then validate `page_size` and `frame_count`, returning the
matching `ZeroCache` error, and otherwise build the interior. -/
def SwapCache.new (src : Source) (page_size frame_count : Nat) :
    Except CacheErr SwapCache :=
  if src.seekEndOk then
    let len := src.bytes.length
    if page_size ≠ 0 ∧ frame_count ≠ 0 then
      (swapImplNewChecked src page_size frame_count).map
        (fun impl => ⟨len, page_size * frame_count, impl⟩)
    else if page_size = 0 then
      .error (.zeroCache "swap cache configured with zero pages")
    else
      .error (.zeroCache "swap cache configured with zero frames")
  else .error .io

/-- The integer square root of `auto_cache.rs` (`fn sqrt`), first loop:
grow `shift` by 2 until `n >> shift` is `0` (or equal to `n`, which only
happens for `n = 0` since `shift` is at least 2). -/
def sqrtShift (n : Nat) (shift : Nat) : Nat :=
  let shifted := n >>> shift
  if shifted = 0 ∨ shifted = n then shift
  else sqrtShift n (shift + 2)
termination_by n >>> shift
decreasing_by
  have h2 : n >>> (shift + 2) = (n >>> shift) / 4 := by
    rw [Nat.shiftRight_add]
    simp [Nat.shiftRight_succ, Nat.div_div_eq_div_mul]
  have hpos : 0 < n >>> shift := by
    rcases Nat.eq_zero_or_pos (n >>> shift) with h | h
    · exact absurd (Or.inl h) (by assumption)
    · exact h
  omega

/-- The integer square root of `auto_cache.rs` (`fn sqrt`), second loop:
process digit pairs from `shift` down to 0 in steps of 2 (the Rust loop
runs while the signed `shift` is nonnegative; `shift` is always even). -/
def sqrtGo (n : Nat) (ret shift : Nat) : Nat :=
  let r1 := ret * 2
  let candidate := r1 + 1
  let r2 := if candidate * candidate ≤ n >>> shift then candidate else r1
  if shift = 0 then r2 else sqrtGo n r2 (shift - 2)
termination_by shift
decreasing_by omega

/-- `fn sqrt` of `auto_cache.rs` (lines 34-52). -/
def sqrt (n : Nat) : Nat :=
  sqrtGo n 0 (sqrtShift n 2 - 2)

/-- `AutoCache` (`auto_cache.rs`): a sum of the two cache flavors. -/
inductive AutoCache where
  | full : FullCache → AutoCache
  | swap : SwapCache → AutoCache
deriving DecidableEq, Inhabited

/-- `AutoCache::new` (`auto_cache.rs` lines 57-76): reject a zero
budget, discover the length, and pick `FullCache` when the source fits
in the budget, otherwise a `SwapCache` with `page_sz = sqrt(mem_max)`
and the largest of `page_sz + 1` / `page_sz` frames that fits. -/
def AutoCache.new (src : Source) (mem_max : Nat) : Except CacheErr AutoCache :=
  if mem_max = 0 then .error (.zeroCache "AutoCache configured with no memory")
  else
    if src.seekEndOk then
      let len := src.bytes.length
      if mem_max < len then
        let page_sz := sqrt mem_max
        let fc0 := page_sz + 1
        let frame_count := if mem_max < page_sz * fc0 then page_sz else fc0
        (SwapCache.new src page_sz frame_count).map .swap
      else
        (FullCache.new src).map .full
    else .error .io

/-- `Cache::cache_size` as implemented by the two flavors and dispatched
by `AutoCache` (`full_cache.rs` line 54, `swap_cache.rs` line 234,
`auto_cache.rs` lines 96-101). -/
def AutoCache.cache_size : AutoCache → Nat
  | .full f => f.data.length
  | .swap s => s.cache_sz

/-- `std::io::SeekFrom` (offsets are `u64` for `Start`, `i64`
otherwise). -/
inductive SeekFrom where
  | start (o : Nat) : SeekFrom
  | current (o : Int) : SeekFrom
  | fromEnd (o : Int) : SeekFrom
deriving DecidableEq, Inhabited

/-- `<CacheReader as Seek>::seek` (`cache_reader.rs` lines 76-118),
computing the new position from the cache length `len` and the current
position `pos`.  The source has no failure path at all (it always
returns `Ok(self.pos)`).  Faithful details: for a negative offset,
`-offset as u64` is the absolute value (also for `i64::MIN`, whose
wrapping negation reinterpreted as `u64` is exactly `2^63`); for
`Current` with a nonnegative offset, the `u64` addition
`self.pos + offset as u64` wraps modulo `2^64`. -/
def cacheReaderSeek (len pos : Nat) : SeekFrom → Nat
  | .current o =>
    if o < 0 then
      let m := o.natAbs
      if pos < m then 0 else pos - m
    else
      let q := (pos + o.toNat) % 2 ^ 64
      if len < q then len else q
  | .fromEnd o =>
    if o < 0 then
      let m := o.natAbs
      if len < m then 0 else len - m
    else len
  | .start o => if len < o then len else o

/-- The clamp written in the spec for `seek`: `clamp(x, 0, L)` for a
(possibly negative) integer `x`. -/
def specClamp (x : Int) (len : Nat) : Nat := min x.toNat len

/-- The `SwapCache` produced by a successful `SwapCache::new` over a
well-behaved source. -/
def mkSwapCache (src : List Nat) (page_size frame_count : Nat) : SwapCache :=
  ⟨src.length, page_size * frame_count, swapImplNew src page_size frame_count⟩

/-- The chunk trace of a `SwapCache::traverse_chunks` call with a
visitor that always succeeds: the list of `(offset, chunk)` pairs passed
to the visitor, or `none` on panic or fuel exhaustion. -/
def swapChunkTrace (src : List Nat) (page_size frame_count : Nat)
    (rs re : RBound) (fuel : Nat) : Option (List (Nat × List Nat)) :=
  ((mkSwapCache src page_size frame_count).traverse_chunks (σ := Unit) (E := Unit)
      rs re (fun _ _ => ((), none)) () fuel).map (fun r => r.2.2.2)

/-! ## Association-list (`HashMap`) lemmas -/

theorem mlookup_mremove_ne (m : List (Nat × Nat)) {k k' : Nat} (h : k' ≠ k) :
    mlookup (mremove m k) k' = mlookup m k' := by
  induction m with
  | nil => rfl
  | cons e rest ih =>
    by_cases he : e.1 = k
    · rw [mremove, if_pos he, mlookup, if_neg (by omega)]
    · rw [mremove, if_neg he, mlookup, mlookup]
      by_cases he' : e.1 = k'
      · rw [if_pos he', if_pos he']
      · rw [if_neg he', if_neg he', ih]

theorem length_mremove (m : List (Nat × Nat)) {k v : Nat}
    (h : mlookup m k = some v) : m.length = (mremove m k).length + 1 := by
  induction m with
  | nil => simp [mlookup] at h
  | cons e rest ih =>
    by_cases he : e.1 = k
    · rw [mremove, if_pos he]; simp
    · rw [mlookup, if_neg he] at h
      rw [mremove, if_neg he]
      simp [ih h]

theorem mem_mremove {m : List (Nat × Nat)} {k : Nat} {e : Nat × Nat}
    (h : e ∈ mremove m k) : e ∈ m := by
  induction m with
  | nil => simp [mremove] at h
  | cons e' rest ih =>
    by_cases he : e'.1 = k
    · rw [mremove, if_pos he] at h; exact List.mem_cons_of_mem _ h
    · rw [mremove, if_neg he] at h
      rcases List.mem_cons.mp h with h | h
      · exact h ▸ List.mem_cons_self _ _
      · exact List.mem_cons_of_mem _ (ih h)

theorem mremove_sublist (m : List (Nat × Nat)) (k : Nat) :
    (mremove m k).Sublist m := by
  induction m with
  | nil => simp [mremove]
  | cons e rest ih =>
    by_cases he : e.1 = k
    · rw [mremove, if_pos he]; exact List.sublist_cons_self e rest
    · rw [mremove, if_neg he]; exact List.Sublist.cons₂ e ih

theorem nodup_keys_mremove {m : List (Nat × Nat)} (k : Nat)
    (h : (m.map Prod.fst).Nodup) : ((mremove m k).map Prod.fst).Nodup :=
  ((mremove_sublist m k).map Prod.fst).nodup h

theorem mlookup_eq_none_iff (m : List (Nat × Nat)) (k : Nat) :
    mlookup m k = none ↔ ∀ e ∈ m, e.1 ≠ k := by
  induction m with
  | nil => simp [mlookup]
  | cons e rest ih =>
    rw [mlookup]
    by_cases he : e.1 = k
    · simp [he]
    · simp [he, ih]

theorem mlookup_mremove_self {m : List (Nat × Nat)} (k : Nat)
    (h : (m.map Prod.fst).Nodup) : mlookup (mremove m k) k = none := by
  induction m with
  | nil => rfl
  | cons e rest ih =>
    simp only [List.map_cons, List.nodup_cons] at h
    by_cases he : e.1 = k
    · rw [mremove, if_pos he, mlookup_eq_none_iff]
      intro e' he' hk
      exact h.1 (he ▸ hk ▸ List.mem_map_of_mem Prod.fst he')
    · rw [mremove, if_neg he, mlookup, if_neg he]
      exact ih h.2

theorem mremove_eq_of_none {m : List (Nat × Nat)} {k : Nat}
    (h : mlookup m k = none) : mremove m k = m := by
  induction m with
  | nil => rfl
  | cons e rest ih =>
    rw [mlookup] at h
    by_cases he : e.1 = k
    · rw [if_pos he] at h; exact absurd h (by simp)
    · rw [if_neg he] at h
      rw [mremove, if_neg he, ih h]

theorem mlookup_some_mem {m : List (Nat × Nat)} {k v : Nat}
    (h : mlookup m k = some v) : (k, v) ∈ m := by
  induction m with
  | nil => simp [mlookup] at h
  | cons e rest ih =>
    rw [mlookup] at h
    by_cases he : e.1 = k
    · rw [if_pos he] at h
      have : e = (k, v) := by
        obtain ⟨a, b⟩ := e
        simp only at he
        simp only [Option.some.injEq] at h
        simp [he, h]
      exact this ▸ List.mem_cons_self _ _
    · rw [if_neg he] at h
      exact List.mem_cons_of_mem _ (ih h)

/-! ## Frame-array (`Vec<Frame>`) lemmas -/

theorem length_updFrame (fs : List Frame) (i : Nat) (g : Frame → Frame) :
    (updFrame fs i g).length = fs.length := by
  simp [updFrame]

theorem getD_updFrame_self {fs : List Frame} {i : Nat} (g : Frame → Frame)
    (h : i < fs.length) :
    (updFrame fs i g).getD i default = g (fs.getD i default) := by
  rw [updFrame, List.getD_eq_getElem?_getD, List.getElem?_set_self h,
    Option.getD_some, List.getD_eq_getElem _ _ h]

theorem getD_updFrame_ne {fs : List Frame} {i j : Nat} (g : Frame → Frame)
    (h : j ≠ i) : (updFrame fs i g).getD j default = fs.getD j default := by
  rw [updFrame, List.getD_eq_getElem?_getD, List.getElem?_set_ne (Ne.symm h),
    ← List.getD_eq_getElem?_getD]

theorem mem_updFrame {fs : List Frame} {i : Nat} {g : Frame → Frame} {f : Frame}
    (h : f ∈ updFrame fs i g) : f ∈ fs ∨ f = g (fs.getD i default) :=
  List.mem_or_eq_of_mem_set h

theorem getD_updFrame_page {fs : List Frame} {i : Nat} {g : Frame → Frame}
    (hg : ∀ f, (g f).page = f.page) (j : Nat) :
    ((updFrame fs i g).getD j default).page = (fs.getD j default).page := by
  by_cases hj : j = i
  · subst hj
    by_cases hi : j < fs.length
    · rw [getD_updFrame_self g hi, hg]
    · rw [updFrame, List.set_eq_of_length_le (by omega)]
  · rw [getD_updFrame_ne g hj]

/-! ## The swap-cache invariant -/

/-- A frame link is either the `NULL` sentinel or a valid frame index. -/
def linkOk (bound v : Nat) : Prop := v = NULL ∨ v < bound

instance (bound v : Nat) : Decidable (linkOk bound v) := by
  unfold linkOk; infer_instance

/-- All frames' links are `NULL` or in bounds. -/
def linksOk (bound : Nat) (fs : List Frame) : Prop :=
  ∀ f ∈ fs, linkOk bound f.next ∧ linkOk bound f.prev

instance (bound : Nat) (fs : List Frame) : Decidable (linksOk bound fs) := by
  unfold linksOk; infer_instance

/-- The page map is a bijection between the frames' current page indices
and the frame indices holding them: it has exactly one entry per frame,
its keys are distinct, every entry `(p, i)` names a valid frame `i`
holding page `p`, and every frame's page looks up to that frame. -/
def MapBij (st : SwapCacheImpl) : Prop :=
  st.map.length = st.frames.length ∧
  (st.map.map Prod.fst).Nodup ∧
  (∀ e ∈ st.map, e.2 < st.frames.length ∧ (st.frameAt e.2).page = e.1) ∧
  (∀ i, i < st.frames.length → mlookup st.map (st.frameAt i).page = some i)

instance (st : SwapCacheImpl) : Decidable (MapBij st) := by
  unfold MapBij SwapCacheImpl.frameAt; infer_instance

/-- The structural invariant of `SwapCacheImpl`: valid list endpoints,
valid links, a frame count representable below the sentinel, and the
page-map bijection. -/
def SwapInv (st : SwapCacheImpl) : Prop :=
  st.front < st.frames.length ∧
  st.back < st.frames.length ∧
  st.frames.length ≤ NULL ∧
  linksOk st.frames.length st.frames ∧
  MapBij st

instance (st : SwapCacheImpl) : Decidable (SwapInv st) := by
  unfold SwapInv; infer_instance

/-! ## Invariant preservation -/

theorem mapBij_transport {st st' : SwapCacheImpl} (h : MapBij st)
    (hmap : st'.map = st.map) (hlen : st'.frames.length = st.frames.length)
    (hpages : ∀ j, (st'.frameAt j).page = (st.frameAt j).page) : MapBij st' := by
  obtain ⟨h1, h2, h3, h4⟩ := h
  refine ⟨by rw [hmap, hlen, h1], by rw [hmap]; exact h2, ?_, ?_⟩
  · intro e he
    rw [hmap] at he
    exact ⟨hlen ▸ (h3 e he).1, (hpages e.2).trans (h3 e he).2⟩
  · intro i hi
    rw [hmap, hpages i]
    exact h4 i (hlen ▸ hi)

theorem linksOk_updFrame {bound : Nat} {fs : List Frame} {i : Nat}
    {g : Frame → Frame} (h : linksOk bound fs)
    (hg : ∀ f ∈ fs, linkOk bound (g f).next ∧ linkOk bound (g f).prev)
    (hi : i < fs.length) : linksOk bound (updFrame fs i g) := by
  intro f hf
  rcases mem_updFrame hf with hf | hf
  · exact h f hf
  · subst hf
    exact hg _ (List.getD_eq_getElem fs default hi ▸ List.getElem_mem hi)

@[simp] theorem setNextF_back (st : SwapCacheImpl) (i v : Nat) :
    (setNextF st i v).back = st.back := rfl

@[simp] theorem setNextF_front (st : SwapCacheImpl) (i v : Nat) :
    (setNextF st i v).front = st.front := rfl

@[simp] theorem setNextF_map (st : SwapCacheImpl) (i v : Nat) :
    (setNextF st i v).map = st.map := rfl

@[simp] theorem setPrevF_back (st : SwapCacheImpl) (i v : Nat) :
    (setPrevF st i v).back = st.back := rfl

@[simp] theorem setPrevF_front (st : SwapCacheImpl) (i v : Nat) :
    (setPrevF st i v).front = st.front := rfl

@[simp] theorem setPrevF_map (st : SwapCacheImpl) (i v : Nat) :
    (setPrevF st i v).map = st.map := rfl

@[simp] theorem setLinksF_back (st : SwapCacheImpl) (i p n : Nat) :
    (setLinksF st i p n).back = st.back := rfl

@[simp] theorem setLinksF_front (st : SwapCacheImpl) (i p n : Nat) :
    (setLinksF st i p n).front = st.front := rfl

@[simp] theorem setLinksF_map (st : SwapCacheImpl) (i p n : Nat) :
    (setLinksF st i p n).map = st.map := rfl

theorem setNextF_length (st : SwapCacheImpl) (i v : Nat) :
    (setNextF st i v).frames.length = st.frames.length := by
  simp [setNextF, length_updFrame]

theorem setPrevF_length (st : SwapCacheImpl) (i v : Nat) :
    (setPrevF st i v).frames.length = st.frames.length := by
  simp [setPrevF, length_updFrame]

theorem setLinksF_length (st : SwapCacheImpl) (i p n : Nat) :
    (setLinksF st i p n).frames.length = st.frames.length := by
  simp [setLinksF, length_updFrame]

theorem setNextF_page (st : SwapCacheImpl) (i v j : Nat) :
    ((setNextF st i v).frameAt j).page = (st.frameAt j).page := by
  simp only [setNextF, SwapCacheImpl.frameAt]
  apply getD_updFrame_page
  intro f
  rfl

theorem setPrevF_page (st : SwapCacheImpl) (i v j : Nat) :
    ((setPrevF st i v).frameAt j).page = (st.frameAt j).page := by
  simp only [setPrevF, SwapCacheImpl.frameAt]
  apply getD_updFrame_page
  intro f
  rfl

theorem setLinksF_page (st : SwapCacheImpl) (i p n j : Nat) :
    ((setLinksF st i p n).frameAt j).page = (st.frameAt j).page := by
  simp only [setLinksF, SwapCacheImpl.frameAt]
  apply getD_updFrame_page
  intro f
  rfl

theorem setNextF_linksOk {st : SwapCacheImpl} {i v : Nat}
    (h : linksOk st.frames.length st.frames) (hv : linkOk st.frames.length v)
    (hi : i < st.frames.length) :
    linksOk st.frames.length (setNextF st i v).frames := by
  simp only [setNextF]
  exact linksOk_updFrame h (fun f hfm => ⟨hv, (h f hfm).2⟩) hi

theorem setPrevF_linksOk {st : SwapCacheImpl} {i v : Nat}
    (h : linksOk st.frames.length st.frames) (hv : linkOk st.frames.length v)
    (hi : i < st.frames.length) :
    linksOk st.frames.length (setPrevF st i v).frames := by
  simp only [setPrevF]
  exact linksOk_updFrame h (fun f hfm => ⟨(h f hfm).1, hv⟩) hi

theorem setLinksF_linksOk {st : SwapCacheImpl} {i p n : Nat}
    (h : linksOk st.frames.length st.frames) (hp : linkOk st.frames.length p)
    (hn : linkOk st.frames.length n) (hi : i < st.frames.length) :
    linksOk st.frames.length (setLinksF st i p n).frames := by
  simp only [setLinksF]
  exact linksOk_updFrame h (fun _ _ => ⟨hn, hp⟩) hi

theorem swapInv_of_parts {st st' : SwapCacheImpl}
    (h : SwapInv st)
    (hlen : st'.frames.length = st.frames.length)
    (hmap : st'.map = st.map)
    (hpages : ∀ j, (st'.frameAt j).page = (st.frameAt j).page)
    (hfr : st'.front < st.frames.length)
    (hbk : st'.back < st.frames.length)
    (hlinks : linksOk st.frames.length st'.frames) : SwapInv st' := by
  obtain ⟨_, _, hle, _, hbij⟩ := h
  exact ⟨hlen ▸ hfr, hlen ▸ hbk, hlen ▸ hle, hlen ▸ hlinks,
    mapBij_transport hbij hmap hlen hpages⟩

/-- `promote_frame` preserves the invariant (it only rewires links and
possibly moves `front` to a valid index). -/
theorem swapInv_promote {st : SwapCacheImpl} {fidx : Nat} (h : SwapInv st)
    (hf : fidx < st.frames.length) : SwapInv (promote_frame st fidx) := by
  obtain ⟨hfr, hbk, hle, hlinks, hbij⟩ := h
  rw [promote_frame]
  by_cases hbf : st.back = st.front
  · rw [if_pos hbf]; exact ⟨hfr, hbk, hle, hlinks, hbij⟩
  rw [if_neg hbf]
  simp only
  by_cases hnxt : (st.frameAt fidx).next = NULL
  · rw [if_pos hnxt]; exact ⟨hfr, hbk, hle, hlinks, hbij⟩
  rw [if_neg hnxt]
  have hfmem : st.frameAt fidx ∈ st.frames := by
    rw [SwapCacheImpl.frameAt, List.getD_eq_getElem _ _ hf]
    exact List.getElem_mem hf
  have hnxtlt : (st.frameAt fidx).next < st.frames.length := by
    rcases (hlinks _ hfmem).1 with h | h
    · exact absurd h hnxt
    · exact h
  have key : ∀ st1 : SwapCacheImpl,
      st1.frames.length = st.frames.length → st1.map = st.map →
      (∀ j, (st1.frameAt j).page = (st.frameAt j).page) →
      st1.front < st.frames.length → st1.back = st.back →
      linksOk st.frames.length st1.frames →
      SwapInv (setLinksF (setNextF st1 st1.back fidx) fidx
        (setNextF st1 st1.back fidx).back NULL) := by
    intro st1 h1len h1map h1pages h1front h1back h1links
    have h2back : (setNextF st1 st1.back fidx).back = st1.back := rfl
    have hbklt : st1.back < st1.frames.length := by rw [h1len, h1back]; exact hbk
    refine swapInv_of_parts ⟨hfr, hbk, hle, hlinks, hbij⟩ ?_ ?_ ?_ ?_ ?_ ?_
    · rw [setLinksF_length, setNextF_length, h1len]
    · exact h1map
    · intro j
      rw [setLinksF_page, setNextF_page, h1pages]
    · exact h1front
    · simp only [setLinksF_back, setNextF_back, h1back]; exact hbk
    · have l2 : linksOk st.frames.length (setNextF st1 st1.back fidx).frames := by
        rw [← h1len]
        rw [← h1len] at h1links
        exact setNextF_linksOk h1links (Or.inr (by omega)) hbklt
      have l2len : (setNextF st1 st1.back fidx).frames.length = st.frames.length := by
        rw [setNextF_length, h1len]
      rw [← l2len]
      rw [← l2len] at l2
      refine setLinksF_linksOk l2 ?_ (Or.inl rfl) (by rw [l2len]; exact hf)
      rw [l2len, h2back, h1back]
      exact Or.inr hbk
  by_cases hprv : (st.frameAt fidx).prev = NULL
  · rw [if_pos hprv]
    have hpl : linksOk st.frames.length
        { st with front := (st.frameAt fidx).next }.frames := hlinks
    refine key _ ?_ rfl ?_ ?_ ?_ ?_
    · rw [setPrevF_length]
    · intro j; rw [setPrevF_page]; rfl
    · exact hnxtlt
    · rfl
    · exact setPrevF_linksOk hpl (Or.inl rfl) hnxtlt
  · rw [if_neg hprv]
    have hprvlt : (st.frameAt fidx).prev < st.frames.length := by
      rcases (hlinks _ hfmem).2 with h | h
      · exact absurd h hprv
      · exact h
    have l1 : linksOk st.frames.length
        (setNextF st (st.frameAt fidx).prev (st.frameAt fidx).next).frames :=
      setNextF_linksOk hlinks (Or.inr hnxtlt) hprvlt
    refine key _ ?_ rfl ?_ ?_ ?_ ?_
    · rw [setPrevF_length, setNextF_length]
    · intro j; rw [setPrevF_page, setNextF_page]
    · exact hfr
    · rfl
    · have hlen1 : (setNextF st (st.frameAt fidx).prev
          (st.frameAt fidx).next).frames.length = st.frames.length :=
        setNextF_length _ _ _
      rw [← hlen1]
      rw [← hlen1] at l1
      exact setPrevF_linksOk l1 (by rw [hlen1]; exact Or.inr hprvlt)
        (by rw [hlen1]; exact hnxtlt)

/-- `load_page` (called only on a page-map miss) preserves the
invariant: the evicted frame's entry is removed, the new page is written
into that frame and its fresh entry is inserted. -/
theorem swapInv_load {st : SwapCacheImpl} {page : Nat} (h : SwapInv st)
    (hmiss : mlookup st.map page = none) :
    ∀ st', load_page st page = some st' →
      SwapInv st' ∧ st'.front = st.front ∧ st'.frames.length = st.frames.length := by
  obtain ⟨hfr, hbk, hle, hlinks, hbij⟩ := h
  obtain ⟨hblen, hbnd, hbent, hblook⟩ := hbij
  intro st' hload
  have hhit : mlookup st.map (st.frameAt st.front).page = some st.front :=
    hblook st.front hfr
  rw [load_page, hhit] at hload
  simp only [Option.some.injEq] at hload
  subst hload
  -- notation for the pieces
  set k0 := (st.frameAt st.front).page with hk0
  set m1 := mremove st.map k0 with hm1
  set fs1 := updFrame st.frames st.front
    (fun f => { f with data := readInto st.source (page * st.page_sz) f.data,
                       page := page }) with hfs1
  have hfs1len : fs1.length = st.frames.length := length_updFrame _ _ _
  have hm1nodup : (m1.map Prod.fst).Nodup := nodup_keys_mremove k0 hbnd
  have hm1k0 : mlookup m1 k0 = none := mlookup_mremove_self k0 hbnd
  have hm1page : mlookup m1 page = none := by
    rw [mlookup_eq_none_iff] at hmiss ⊢
    exact fun e he => hmiss e (mem_mremove he)
  have hins : minsert m1 page st.front = (page, st.front) :: m1 := by
    rw [minsert, mremove_eq_of_none hm1page]
  have hpagenotkey : ∀ e ∈ m1, e.1 ≠ page := (mlookup_eq_none_iff m1 page).mp hm1page
  have hfs1self : fs1.getD st.front default =
      { st.frameAt st.front with
        data := readInto st.source (page * st.page_sz) (st.frameAt st.front).data,
        page := page } := by
    rw [hfs1]
    exact getD_updFrame_self _ hfr
  have hfs1ne : ∀ j, j ≠ st.front → fs1.getD j default = st.frames.getD j default := by
    intro j hj
    rw [hfs1]
    exact getD_updFrame_ne _ hj
  -- no other frame's map entry has value `front` in m1
  have hm1entries : ∀ e ∈ m1, e.2 < st.frames.length ∧ e.2 ≠ st.front ∧
      (st.frameAt e.2).page = e.1 := by
    intro e he
    have hmem : e ∈ st.map := mem_mremove he
    refine ⟨(hbent e hmem).1, ?_, (hbent e hmem).2⟩
    intro hef
    have : e.1 = k0 := by rw [← (hbent e hmem).2, hef, hk0]
    have : e.1 ∈ m1.map Prod.fst := List.mem_map_of_mem Prod.fst he
    rw [‹e.1 = k0›] at this
    have := ((mlookup_eq_none_iff m1 k0).mp hm1k0)
    obtain ⟨e', he', hee'⟩ := List.mem_map.mp ‹k0 ∈ m1.map Prod.fst›
    exact this e' he' hee'
  refine ⟨⟨?_, ?_, ?_, ?_, ?_, ?_, ?_, ?_⟩, rfl, hfs1len⟩
  · simpa [hfs1len] using hfr
  · simpa [hfs1len] using hbk
  · simpa [hfs1len] using hle
  · -- links unchanged
    show linksOk fs1.length fs1
    rw [hfs1len, hfs1]
    refine linksOk_updFrame hlinks ?_ hfr
    intro f hfm
    exact hlinks f hfm
  · -- map length
    show (minsert m1 page st.front).length = fs1.length
    rw [hins, hfs1len, List.length_cons, hm1, ← length_mremove st.map hhit]
    exact hblen
  · -- nodup keys
    show ((minsert m1 page st.front).map Prod.fst).Nodup
    rw [hins, List.map_cons, List.nodup_cons]
    refine ⟨?_, hm1nodup⟩
    intro hmem
    obtain ⟨e, he, hee⟩ := List.mem_map.mp hmem
    exact hpagenotkey e he hee
  · -- entries valid
    show ∀ e ∈ minsert m1 page st.front, e.2 < fs1.length ∧
      (fs1.getD e.2 default).page = e.1
    rw [hins]
    intro e he
    rcases List.mem_cons.mp he with he | he
    · subst he
      refine ⟨by rw [hfs1len]; exact hfr, ?_⟩
      rw [hfs1self]
    · obtain ⟨h1, h2, h3⟩ := hm1entries e he
      exact ⟨by rw [hfs1len]; exact h1, by rw [hfs1ne e.2 h2]; exact h3⟩
  · -- reverse lookup
    show ∀ i, i < fs1.length → mlookup (minsert m1 page st.front)
      (fs1.getD i default).page = some i
    rw [hfs1len]
    intro i hi
    by_cases hif : i = st.front
    · subst hif
      rw [hfs1self]
      rw [hins, mlookup, if_pos rfl]
    · rw [hfs1ne i hif]
      have hkey : (st.frameAt i).page ≠ page := by
        intro hkp
        have := hblook i hi
        rw [hkp, hmiss] at this
        exact Option.noConfusion this
      have hkey0 : (st.frameAt i).page ≠ k0 := by
        intro hkp
        have h1 := hblook i hi
        rw [hkp, hhit] at h1
        exact hif (Option.some.inj h1).symm
      rw [hins, mlookup, if_neg (by exact fun hc => hkey hc.symm)]
      show mlookup (mremove st.map k0) (st.frameAt i).page = some i
      rw [mlookup_mremove_ne st.map hkey0]
      exact hblook i hi

/-- `get_chunk` preserves the invariant. -/
theorem swapInv_get_chunk {st : SwapCacheImpl} {pos : Nat} (h : SwapInv st) :
    ∀ p, get_chunk st pos = some p → SwapInv p.1 := by
  intro p hp
  rcases hlk : mlookup st.map (pos / st.page_sz) with _ | fidx
  · -- miss: load then promote
    rw [get_chunk, hlk] at hp
    dsimp only at hp
    rcases hld : load_page st (pos / st.page_sz) with _ | st1
    · rw [hld] at hp
      exact Option.noConfusion hp
    · rw [hld] at hp
      simp only [Option.map_some', if_true, Option.some.injEq] at hp
      obtain ⟨h1, h1front, h1len⟩ := swapInv_load h hlk st1 hld
      have := swapInv_promote h1 h1.1
      rw [← hp]
      exact this
  · -- hit
    rw [get_chunk, hlk] at hp
    dsimp only at hp
    have hfidx : fidx < st.frames.length := by
      obtain ⟨_, _, hbent, _⟩ := h.2.2.2.2
      exact (hbent _ (mlookup_some_mem hlk)).1
    have hne : ¬ fidx = NULL := by
      have : st.frames.length ≤ NULL := h.2.2.1
      omega
    rw [if_neg hne] at hp
    simp only [Option.some.injEq] at hp
    rw [← hp]
    exact swapInv_promote h hfidx

/-- The traversal loop preserves the invariant. -/
theorem swapInv_loop {σ E : Type} (endPos : Nat) (f : σ → List Nat → σ × Option E) :
    ∀ (fuel : Nat) (st : SwapCacheImpl) (pos : Nat) (s : σ)
      (tr : List (Nat × List Nat)) r,
      SwapInv st → swapLoop endPos f fuel st pos s tr = some r → SwapInv r.1 := by
  intro fuel
  induction fuel with
  | zero => intro st pos s tr r _ hr; exact Option.noConfusion hr
  | succ fuel ih =>
    intro st pos s tr r hinv hr
    rw [swapLoop] at hr
    rcases hgc : get_chunk st pos with _ | p
    · rw [hgc] at hr
      exact Option.noConfusion hr
    · rw [hgc] at hr
      have hp1 : SwapInv p.1 := swapInv_get_chunk hinv p hgc
      obtain ⟨st1, chunk⟩ := p
      dsimp only at hr hp1
      by_cases hend : endPos < pos + chunk.length
      · rw [if_pos hend] at hr
        simp only [Option.some.injEq] at hr
        rw [← hr]
        exact hp1
      · rw [if_neg hend] at hr
        rcases hv : (f s chunk).2 with _ | e
        · rw [hv] at hr
          exact ih st1 _ _ _ r hp1 hr
        · rw [hv] at hr
          simp only [Option.some.injEq] at hr
          rw [← hr]
          exact hp1

/-- `SwapCache::traverse_chunks` preserves the invariant whenever it
returns (in particular on every successful call). -/
theorem swapInv_traverse {σ E : Type} {c : SwapCache} {rs re : RBound}
    {f : σ → List Nat → σ × Option E} {s : σ} {fuel : Nat}
    (h : SwapInv c.swap) :
    ∀ r, c.traverse_chunks rs re f s fuel = some r → SwapInv r.1.swap := by
  intro r hr
  rw [SwapCache.traverse_chunks] at hr
  rcases hcs : clampStart c.sz rs with _ | start
  · rw [hcs] at hr
    simp only [Option.some.injEq] at hr
    rw [← hr]
    exact h
  · rw [hcs] at hr
    dsimp only at hr
    by_cases hlt : start < c.sz
    · rw [if_pos hlt] at hr
      rcases hlp : swapLoop (clampEnd c.sz re) f fuel c.swap start s [] with _ | q
      · rw [hlp] at hr
        exact Option.noConfusion hr
      · rw [hlp] at hr
        obtain ⟨st1, s1, r1, tr1⟩ := q
        simp only [Option.some.injEq] at hr
        have := swapInv_loop (clampEnd c.sz re) f fuel c.swap start s [] _ h hlp
        rw [← hr]
        exact this
    · rw [if_neg hlt] at hr
      simp only [Option.some.injEq] at hr
      rw [← hr]
      exact h

/-- `Cache::read` (the trait default) preserves the invariant whenever
it returns. -/
theorem swapInv_read {c : SwapCache} {offset bufLen fuel : Nat}
    (h : SwapInv c.swap) :
    ∀ r, SwapCache.read c offset bufLen fuel = some r → SwapInv r.1.swap := by
  intro r hr
  rw [SwapCache.read] at hr
  rcases ht : SwapCache.traverse_chunks c (RBound.incl offset) (RBound.excl bufLen)
      (fun total chunk => (total + min (bufLen - total) chunk.length, none)) 0 fuel
    with _ | q
  · rw [ht] at hr
    exact Option.noConfusion hr
  · rw [ht] at hr
    have hq := swapInv_traverse h q ht
    obtain ⟨c1, total, rr, tr⟩ := q
    rcases rr with _ | e
    · simp only [Option.some.injEq] at hr
      rw [← hr]
      exact hq
    · simp only [Option.some.injEq] at hr
      rw [← hr]
      exact hq

/-- The page map built by the construction loop: `insert (i -> i)` for
`i = 0, 1, ..., n-1` in order. -/
def initMap (n : Nat) : List (Nat × Nat) :=
  (List.range n).foldl (fun m i => minsert m i i) []

theorem initMap_succ (n : Nat) : initMap (n + 1) = minsert (initMap n) n n := by
  rw [initMap, initMap, List.range_succ, List.foldl_append]
  rfl

theorem initMap_lookup (n : Nat) : ∀ k, mlookup (initMap n) k =
    if k < n then some k else none := by
  induction n with
  | zero => intro k; simp [initMap, mlookup]
  | succ n ih =>
    intro k
    have hfresh : mlookup (initMap n) n = none := by rw [ih]; simp
    rw [initMap_succ, minsert, mremove_eq_of_none hfresh, mlookup]
    by_cases hk : n = k
    · subst hk
      simp
    · rw [if_neg hk, ih]
      by_cases hkn : k < n
      · rw [if_pos hkn, if_pos (by omega)]
      · rw [if_neg hkn, if_neg (by omega)]

theorem initMap_length (n : Nat) : (initMap n).length = n := by
  induction n with
  | zero => rfl
  | succ n ih =>
    have hfresh : mlookup (initMap n) n = none := by rw [initMap_lookup]; simp
    rw [initMap_succ, minsert, mremove_eq_of_none hfresh, List.length_cons, ih]

theorem initMap_mem (n : Nat) : ∀ e ∈ initMap n, e.2 = e.1 ∧ e.1 < n := by
  induction n with
  | zero => intro e he; simp [initMap] at he
  | succ n ih =>
    intro e he
    have hfresh : mlookup (initMap n) n = none := by rw [initMap_lookup]; simp
    rw [initMap_succ, minsert, mremove_eq_of_none hfresh] at he
    rcases List.mem_cons.mp he with he | he
    · subst he; exact ⟨rfl, by omega⟩
    · obtain ⟨h1, h2⟩ := ih e he
      exact ⟨h1, by omega⟩

theorem initMap_nodup (n : Nat) : ((initMap n).map Prod.fst).Nodup := by
  induction n with
  | zero => simp [initMap]
  | succ n ih =>
    have hfresh : mlookup (initMap n) n = none := by rw [initMap_lookup]; simp
    rw [initMap_succ, minsert, mremove_eq_of_none hfresh, List.map_cons,
      List.nodup_cons]
    refine ⟨?_, ih⟩
    intro hmem
    obtain ⟨e, he, hee⟩ := List.mem_map.mp hmem
    exact (mlookup_eq_none_iff _ _).mp hfresh e he hee

theorem initFrames_getD (src : List Nat) (P last n i : Nat) (hi : i < n) :
    ((List.range n).map (initFrame src P last)).getD i default =
      initFrame src P last i := by
  have hlen : i < ((List.range n).map (initFrame src P last)).length := by
    simpa using hi
  rw [List.getD_eq_getElem _ _ hlen, List.getElem_map, List.getElem_range]

/-- The invariant holds immediately after construction (`frame_count` is
nonzero for every successfully validated `SwapCache::new`, and is a
`usize`, hence at most `NULL`). -/
theorem swapInv_new (src : List Nat) (P N : Nat) (hN : 0 < N)
    (hNle : N ≤ NULL) : SwapInv (swapImplNew src P N) := by
  rw [swapImplNew]
  by_cases h1 : N = 1
  · rw [if_pos h1]
    subst h1
    refine ⟨?_, ?_, ?_, ?_, ?_, ?_, ?_, ?_⟩
    · simp
    · simp
    · simp [NULL]
    · intro f hf
      rcases List.mem_singleton.mp hf with rfl
      exact ⟨Or.inl rfl, Or.inl rfl⟩
    · rfl
    · simp [minsert, mremove]
    · intro e he
      simp only [minsert, mremove] at he
      rcases List.mem_singleton.mp he with rfl
      exact ⟨by simp, rfl⟩
    · intro i hi
      simp only [List.length_singleton] at hi
      interval_cases i
      rfl
  · rw [if_neg h1]
    have hN2 : 2 ≤ N := by omega
    have hlen : ((List.range N).map (initFrame src P (N - 1))).length = N := by
      simp
    refine ⟨?_, ?_, ?_, ?_, ?_, ?_, ?_, ?_⟩
    · simp only [hlen]
      omega
    · simp only [hlen]
      omega
    · rw [hlen]
      exact hNle
    · rw [hlen]
      intro f hf
      obtain ⟨i, hi, hfi⟩ := List.mem_map.mp hf
      rw [List.mem_range] at hi
      subst hfi
      have hnext : (initFrame src P (N - 1) i).next =
          if i = 0 then NULL else if i = N - 1 then N - 1 else i - 1 := rfl
      have hprev : (initFrame src P (N - 1) i).prev =
          if i = 0 then 1 else if i = N - 1 then NULL else i + 1 := rfl
      constructor
      · rw [hnext]
        by_cases h0 : i = 0
        · rw [if_pos h0]
          exact Or.inl rfl
        · rw [if_neg h0]
          by_cases hl : i = N - 1
          · rw [if_pos hl]
            exact Or.inr (by omega)
          · rw [if_neg hl]
            exact Or.inr (by omega)
      · rw [hprev]
        by_cases h0 : i = 0
        · rw [if_pos h0]
          exact Or.inr (by omega)
        · rw [if_neg h0]
          by_cases hl : i = N - 1
          · rw [if_pos hl]
            exact Or.inl rfl
          · rw [if_neg hl]
            exact Or.inr (by omega)
    · show (initMap N).length = _
      rw [initMap_length, hlen]
    · exact initMap_nodup N
    · intro e he
      obtain ⟨h2, h3⟩ := initMap_mem N e he
      refine ⟨?_, ?_⟩
      · show e.2 < ((List.range N).map (initFrame src P (N - 1))).length
        rw [hlen, h2]
        exact h3
      · show (((List.range N).map (initFrame src P (N - 1))).getD e.2 default).page = e.1
        rw [h2, initFrames_getD src P (N - 1) N e.1 h3]
        rfl
    · intro i hi
      have hi2 : i < N := by simpa using hi
      show mlookup (initMap N)
        (((List.range N).map (initFrame src P (N - 1))).getD i default).page = some i
      rw [initFrames_getD src P (N - 1) N i hi2]
      show mlookup (initMap N) i = some i
      rw [initMap_lookup]
      exact if_pos hi2

/-! ## Correctness of the integer square root of `auto_cache.rs` -/

theorem sqrtShift_ge (n : Nat) : ∀ shift, shift ≤ sqrtShift n shift := by
  have H : ∀ k shift, n >>> shift ≤ k → shift ≤ sqrtShift n shift := by
    intro k
    induction k with
    | zero =>
      intro shift hle
      rw [sqrtShift, if_pos (Or.inl (Nat.le_zero.mp hle))]
    | succ k ih =>
      intro shift hle
      rw [sqrtShift]
      by_cases hc : n >>> shift = 0 ∨ n >>> shift = n
      · rw [if_pos hc]
      · rw [if_neg hc]
        have hpos : 0 < n >>> shift := by
          rcases Nat.eq_zero_or_pos (n >>> shift) with h | h
          · exact absurd (Or.inl h) hc
          · exact h
        have hdec : n >>> (shift + 2) < n >>> shift := by
          rw [Nat.shiftRight_add]
          have : (n >>> shift) >>> 2 = n >>> shift / 4 := by
            rw [Nat.shiftRight_eq_div_pow]
          omega
        exact le_trans (by omega) (ih (shift + 2) (by omega))
  intro shift
  exact H (n >>> shift) shift le_rfl

theorem sqrtShift_parity (n : Nat) : ∀ shift, sqrtShift n shift % 2 = shift % 2 := by
  have H : ∀ k shift, n >>> shift ≤ k → sqrtShift n shift % 2 = shift % 2 := by
    intro k
    induction k with
    | zero =>
      intro shift hle
      rw [sqrtShift, if_pos (Or.inl (Nat.le_zero.mp hle))]
    | succ k ih =>
      intro shift hle
      rw [sqrtShift]
      by_cases hc : n >>> shift = 0 ∨ n >>> shift = n
      · rw [if_pos hc]
      · rw [if_neg hc]
        have hpos : 0 < n >>> shift := by
          rcases Nat.eq_zero_or_pos (n >>> shift) with h | h
          · exact absurd (Or.inl h) hc
          · exact h
        have hdec : n >>> (shift + 2) < n >>> shift := by
          rw [Nat.shiftRight_add]
          have : (n >>> shift) >>> 2 = n >>> shift / 4 := by
            rw [Nat.shiftRight_eq_div_pow]
          omega
        rw [ih (shift + 2) (by omega)]
        omega
  intro shift
  exact H (n >>> shift) shift le_rfl

theorem sqrtShift_exhausts (n : Nat) : ∀ shift, 1 ≤ shift →
    n >>> (sqrtShift n shift) = 0 := by
  have H : ∀ k shift, n >>> shift ≤ k → 1 ≤ shift → n >>> (sqrtShift n shift) = 0 := by
    intro k
    induction k with
    | zero =>
      intro shift hle _
      rw [sqrtShift, if_pos (Or.inl (Nat.le_zero.mp hle))]
      exact Nat.le_zero.mp hle
    | succ k ih =>
      intro shift hle h1
      rw [sqrtShift]
      by_cases hc : n >>> shift = 0 ∨ n >>> shift = n
      · rw [if_pos hc]
        rcases hc with hc | hc
        · exact hc
        · -- `n >> shift = n` with `shift ≥ 1` forces `n = 0`
          rcases Nat.eq_zero_or_pos n with hn | hn
          · rw [hn]
            simp
          · have hlt : n >>> shift < n := by
              rw [Nat.shiftRight_eq_div_pow]
              refine Nat.div_lt_self hn ?_
              have : 2 ^ 1 ≤ 2 ^ shift := Nat.pow_le_pow_right (by omega) h1
              omega
            omega
      · rw [if_neg hc]
        have hpos : 0 < n >>> shift := by
          rcases Nat.eq_zero_or_pos (n >>> shift) with h | h
          · exact absurd (Or.inl h) hc
          · exact h
        have hdec : n >>> (shift + 2) < n >>> shift := by
          rw [Nat.shiftRight_add]
          have : (n >>> shift) >>> 2 = n >>> shift / 4 := by
            rw [Nat.shiftRight_eq_div_pow]
          omega
        exact ih (shift + 2) (by omega) (by omega)
  intro shift h1
  exact H (n >>> shift) shift le_rfl h1

/-- One digit-pair step of the binary square-root recurrence: knowing
`⌊√(m / 4)⌋`, the candidate test decides `⌊√m⌋`. -/
theorem nat_sqrt_step (m : Nat) :
    Nat.sqrt m =
      if (Nat.sqrt (m / 4) * 2 + 1) * (Nat.sqrt (m / 4) * 2 + 1) ≤ m
      then Nat.sqrt (m / 4) * 2 + 1 else Nat.sqrt (m / 4) * 2 := by
  have h1 : Nat.sqrt (m / 4) * Nat.sqrt (m / 4) ≤ m / 4 := Nat.sqrt_le (m / 4)
  have h2 : m / 4 < (Nat.sqrt (m / 4) + 1) * (Nat.sqrt (m / 4) + 1) :=
    Nat.lt_succ_sqrt (m / 4)
  set r := Nat.sqrt (m / 4) with hr
  have hlow : (r * 2) * (r * 2) ≤ m := by
    have hm4 : 4 * (m / 4) ≤ m := by omega
    have : (r * 2) * (r * 2) = 4 * (r * r) := by ring
    omega
  have hhigh : m < (r * 2 + 2) * (r * 2 + 2) := by
    have hm4 : m < 4 * (m / 4) + 4 := by omega
    have : (r * 2 + 2) * (r * 2 + 2) = 4 * ((r + 1) * (r + 1)) := by ring
    omega
  by_cases hc : (r * 2 + 1) * (r * 2 + 1) ≤ m
  · rw [if_pos hc]
    refine le_antisymm ?_ ?_
    · have : Nat.sqrt m < r * 2 + 2 := Nat.sqrt_lt.mpr hhigh
      omega
    · exact Nat.le_sqrt.mpr hc
  · rw [if_neg hc]
    refine le_antisymm ?_ ?_
    · have : Nat.sqrt m < r * 2 + 1 := Nat.sqrt_lt.mpr (by omega)
      omega
    · exact Nat.le_sqrt.mpr hlow

theorem sqrtGo_eq (n : Nat) : ∀ shift, shift % 2 = 0 →
    sqrtGo n (Nat.sqrt (n >>> (shift + 2))) shift = Nat.sqrt n := by
  intro shift
  induction shift using Nat.strong_induction_on with
  | _ shift ih =>
    intro hpar
    rw [sqrtGo]
    have hdiv : n >>> (shift + 2) = n >>> shift / 4 := by
      rw [Nat.shiftRight_add, Nat.shiftRight_eq_div_pow]
    have hstep : (if (Nat.sqrt (n >>> (shift + 2)) * 2 + 1) *
          (Nat.sqrt (n >>> (shift + 2)) * 2 + 1) ≤ n >>> shift
        then Nat.sqrt (n >>> (shift + 2)) * 2 + 1
        else Nat.sqrt (n >>> (shift + 2)) * 2) = Nat.sqrt (n >>> shift) := by
      rw [hdiv, ← nat_sqrt_step (n >>> shift)]
    by_cases hz : shift = 0
    · rw [if_pos hz]
      rw [hz] at hstep ⊢
      rw [hstep, Nat.shiftRight_zero]
    · rw [if_neg hz]
      have h2 : 2 ≤ shift := by omega
      have : shift - 2 + 2 = shift := by omega
      rw [hstep]
      have ihh := ih (shift - 2) (by omega) (by omega)
      rw [this] at ihh
      exact ihh

/-- `fn sqrt` of `auto_cache.rs` computes the integer square root. -/
theorem sqrt_eq_nat_sqrt (n : Nat) : sqrt n = Nat.sqrt n := by
  rw [sqrt]
  have hge := sqrtShift_ge n 2
  have hpar := sqrtShift_parity n 2
  have hz := sqrtShift_exhausts n 2 (by omega)
  have h2 : sqrtShift n 2 - 2 + 2 = sqrtShift n 2 := by omega
  have := sqrtGo_eq n (sqrtShift n 2 - 2) (by omega)
  rw [h2, hz, Nat.sqrt_zero] at this
  exact this

/-! ## Claim theorems -/

/-- C1: the claim fails on the code.  For the SwapCache with page size 2
and 2 frames over the 3-byte source `[1, 2, 3]`, traversing the full
range `[0, 3)` delivers the chunks `[1, 2]` (offset 0) and `[3, 0]`
(offset 2): the final frame chunk is returned untruncated
(`chunk[..(new_pos - pos)]` in the source, which is the whole chunk), so
the concatenation seen by a concatenating visitor is `[1, 2, 3, 0]` —
the source bytes followed by a zero pad byte — and not the source. -/
theorem c1_swap_roundtrip_cex :
    (swapChunkTrace [1, 2, 3] 2 2 (RBound.incl 0) (RBound.excl 3) 10).map
      (fun tr => (tr.map Prod.snd).flatten) = some [1, 2, 3, 0] ∧
    [1, 2, 3, 0] ≠ [1, 2, 3] := by
  constructor
  · rfl
  · decide

/-- C2: the claim fails on the code.  For the same SwapCache over
`[1, 2, 3]` (page size 2, 2 frames), traversing `[1, 3)` delivers
`(1, [2])` and then `(2, [3, 0])`: the last chunk covers offsets
`[2, 4)`, so its end `2 + 2 = 4` exceeds `min(range.end, L) = 3` and the
chunk is not contained in `range ∩ [0, L)`. -/
theorem c2_chunk_containment_cex :
    swapChunkTrace [1, 2, 3] 2 2 (RBound.incl 1) (RBound.excl 3) 10 =
      some [(1, [2]), (2, [3, 0])] ∧
    ¬ (2 + ([3, 0] : List Nat).length ≤ min 3 3) := by
  constructor
  · rfl
  · decide

/-- C3: the claim fails on the code.  `Cache::read` traverses
`offset..buffer.len()` instead of `offset..offset + buffer.len()`
(`lib.rs` line 143).  For a SwapCache with page size 4 and 5 frames over
the 20-byte source `[0, 1, ..., 19]`, `read(5, buffer)` with a 10-byte
buffer returns 7 (the bytes of offsets `[5, 12)`), not
`min(10, 20 - 5) = 10`. -/
theorem c3_read_count_cex :
    (SwapCache.read (mkSwapCache (List.range 20) 4 5) 5 10 40).map Prod.snd =
      some (Except.ok 7) ∧ (7 : Nat) ≠ min 10 (20 - 5) := by
  constructor
  · rfl
  · decide

/-- C4: the claim fails on the code.  `FullCache::traverse_chunks`
discards the visitor's result (`let _ = f(...)`, `full_cache.rs` lines
100-101) and returns success: over the one-byte source `[1]`, a visitor
that always fails is invoked once (on the whole buffer) and traversal
still returns no error — the failure is not propagated. -/
theorem c4_full_cache_ignores_visitor_failure :
    FullCache.traverse_chunks (σ := Unit) (E := CacheErr) ⟨[1]⟩
      RBound.unbounded RBound.unbounded (fun _ _ => ((), some .io)) () =
      some ((), none, [(0, [1])]) ∧
    some CacheErr.io ≠ (none : Option CacheErr) := by
  constructor
  · rfl
  · decide

/-- C5: the claim fails on the code.  After constructing a swap cache
with 2 frames (page size 1, any source), `front = 1` and `back = 0` as
claimed, but frame 1's `next` link is `1` — a self-loop written by the
`i == last` arm of `SwapCacheImpl::new` (`next: last` instead of
`last - 1`) — so the frames are not linked `1 ↔ 0` and walking from
`front` via `next` revisits `front` forever and never reaches `back`. -/
theorem c5_lru_init_chain_broken :
    (swapImplNew [0, 0] 1 2).front = 1 ∧
    (swapImplNew [0, 0] 1 2).back = 0 ∧
    ((swapImplNew [0, 0] 1 2).frameAt (swapImplNew [0, 0] 1 2).front).next =
      (swapImplNew [0, 0] 1 2).front ∧
    (swapImplNew [0, 0] 1 2).front ≠ (swapImplNew [0, 0] 1 2).back := by
  refine ⟨rfl, rfl, ?_, by decide⟩
  rfl

/-- C6: the claim fails on the code.  For a SwapCache with page size 1
and 1 frame over the source `[7]`, the empty range `[0, 0)` (start =
end = 0 < L = 1) passes the `start < len` guard, so the traversal loop
runs and the visitor is invoked once — with the chunk `[7]`, which an
empty range cannot contain — instead of not being invoked at all. -/
theorem c6_empty_range_invokes_visitor :
    swapChunkTrace [7] 1 1 (RBound.incl 0) (RBound.excl 0) 10 =
      some [(0, [7])] ∧
    ([(0, [7])] : List (Nat × List Nat)) ≠ [] := by
  constructor
  · rfl
  · decide

/-- C7: `AutoCache::new(source, M)` with `M > 0` over a source of length
`L` builds the full variant with `cache_size = L` when `L ≤ M`, and
otherwise the swap variant with page size `P = ⌊√M⌋` (which is positive,
so the `ZeroCache` case for `P = 0` cannot arise) and frame count
`N = P + 1` when `P·(P+1) ≤ M`, else `N = P`; its
`cache_size = P·N` is at most `M`. -/
theorem c7_auto_cache_selection (src : Source) (M : Nat) (hM : 0 < M)
    (hE : src.seekEndOk = true) (hS : src.seekStartOk = true)
    (hR : src.readOk = true) :
    (src.bytes.length ≤ M →
      AutoCache.new src M = Except.ok (AutoCache.full ⟨src.bytes⟩) ∧
      AutoCache.cache_size (AutoCache.full ⟨src.bytes⟩) = src.bytes.length) ∧
    (M < src.bytes.length →
      AutoCache.new src M = Except.ok (AutoCache.swap
        (mkSwapCache src.bytes (Nat.sqrt M)
          (if Nat.sqrt M * (Nat.sqrt M + 1) ≤ M then Nat.sqrt M + 1
           else Nat.sqrt M))) ∧
      0 < Nat.sqrt M ∧
      AutoCache.cache_size (AutoCache.swap
        (mkSwapCache src.bytes (Nat.sqrt M)
          (if Nat.sqrt M * (Nat.sqrt M + 1) ≤ M then Nat.sqrt M + 1
           else Nat.sqrt M))) ≤ M) := by
  have hP : 0 < Nat.sqrt M := Nat.sqrt_pos.mpr hM
  constructor
  · intro hle
    constructor
    · rw [AutoCache.new, if_neg (by omega : ¬ M = 0), hE]
      simp only [if_true]
      rw [if_neg (by omega : ¬ M < src.bytes.length)]
      rw [FullCache.new, hS, hR]
      rfl
    · rfl
  · intro hgt
    have hNif : (if M < sqrt M * (sqrt M + 1) then sqrt M else sqrt M + 1) =
        (if Nat.sqrt M * (Nat.sqrt M + 1) ≤ M then Nat.sqrt M + 1
         else Nat.sqrt M) := by
      rw [sqrt_eq_nat_sqrt]
      by_cases hc : Nat.sqrt M * (Nat.sqrt M + 1) ≤ M
      · rw [if_neg (by omega), if_pos hc]
      · rw [if_pos (by omega), if_neg hc]
    refine ⟨?_, hP, ?_⟩
    · rw [AutoCache.new, if_neg (by omega : ¬ M = 0), hE]
      simp only [if_true]
      rw [if_pos hgt]
      rw [SwapCache.new, hE]
      simp only [if_true]
      rw [if_pos ⟨by rw [sqrt_eq_nat_sqrt]; omega,
          by rw [hNif]; split_ifs <;> omega⟩]
      rw [swapImplNewChecked, hS, hR]
      simp only [if_true]
      rw [mkSwapCache]
      rw [hNif, sqrt_eq_nat_sqrt]
      rfl
    · show Nat.sqrt M * _ ≤ M
      by_cases hc : Nat.sqrt M * (Nat.sqrt M + 1) ≤ M
      · rw [if_pos hc]
        exact hc
      · rw [if_neg hc]
        exact Nat.sqrt_le M

/-- C7 witness: over the 20-byte source `[0, ..., 0]` with budget 6,
`AutoCache::new` picks the swap variant with page size `⌊√6⌋ = 2` and
3 frames, and its cache size `6 ≤ 6`. -/
theorem c7_auto_cache_selection_witness :
    (0 : Nat) < 6 ∧
    ((⟨List.replicate 20 0, true, true, true⟩ : Source).bytes.length ≤ 6 →
      AutoCache.new ⟨List.replicate 20 0, true, true, true⟩ 6 =
        Except.ok (AutoCache.full ⟨(⟨List.replicate 20 0, true, true, true⟩ : Source).bytes⟩) ∧
      AutoCache.cache_size (AutoCache.full ⟨(⟨List.replicate 20 0, true, true, true⟩ : Source).bytes⟩) =
        (⟨List.replicate 20 0, true, true, true⟩ : Source).bytes.length) ∧
    (6 < (⟨List.replicate 20 0, true, true, true⟩ : Source).bytes.length →
      AutoCache.new ⟨List.replicate 20 0, true, true, true⟩ 6 =
        Except.ok (AutoCache.swap (mkSwapCache
          (⟨List.replicate 20 0, true, true, true⟩ : Source).bytes (Nat.sqrt 6)
          (if Nat.sqrt 6 * (Nat.sqrt 6 + 1) ≤ 6 then Nat.sqrt 6 + 1
           else Nat.sqrt 6))) ∧
      0 < Nat.sqrt 6 ∧
      AutoCache.cache_size (AutoCache.swap (mkSwapCache
          (⟨List.replicate 20 0, true, true, true⟩ : Source).bytes (Nat.sqrt 6)
          (if Nat.sqrt 6 * (Nat.sqrt 6 + 1) ≤ 6 then Nat.sqrt 6 + 1
           else Nat.sqrt 6))) ≤ 6) :=
  ⟨by decide,
   c7_auto_cache_selection ⟨List.replicate 20 0, true, true, true⟩ 6
     (by decide) rfl rfl rfl⟩

/-- C8: for every swap cache over a well-behaved (never failing) source,
the invariant `SwapInv` — in particular its `MapBij` component: the page
map has exactly `N` entries and is a bijection between the frames'
resident page indices and the frame indices holding them — holds after
construction (any `frame_count > 0`, a `usize`, hence at most `NULL`)
and is preserved by every `traverse_chunks` and every `read` call that
returns. -/
theorem c8_map_bijection_invariant :
    (∀ (src : List Nat) (P N : Nat), 0 < N → N ≤ NULL →
      SwapInv (swapImplNew src P N)) ∧
    (∀ (σ E : Type) (c : SwapCache) (rs re : RBound)
      (f : σ → List Nat → σ × Option E) (s : σ) (fuel : Nat) r,
      SwapInv c.swap → c.traverse_chunks rs re f s fuel = some r →
      SwapInv r.1.swap) ∧
    (∀ (c : SwapCache) (offset bufLen fuel : Nat) r,
      SwapInv c.swap → SwapCache.read c offset bufLen fuel = some r →
      SwapInv r.1.swap) :=
  ⟨fun src P N hN hNle => swapInv_new src P N hN hNle,
   fun _ _ _ _ _ _ _ _ r h hr => swapInv_traverse h r hr,
   fun _ _ _ _ r h hr => swapInv_read h r hr⟩

/-- C8 witness: the invariant holds for the concrete cache with page
size 2 and 2 frames over `[1, 2, 3]`, after construction, after a full
traversal, and after a `read` call. -/
theorem c8_map_bijection_invariant_witness :
    ((0 : Nat) < 2 ∧ (2 : Nat) ≤ NULL ∧ SwapInv (swapImplNew [1, 2, 3] 2 2)) ∧
    SwapInv (((mkSwapCache [1, 2, 3] 2 2).traverse_chunks (σ := Unit) (E := Unit)
      (RBound.incl 0) (RBound.excl 3) (fun s _ => (s, none)) () 10).getD
        default).1.swap ∧
    SwapInv ((SwapCache.read (mkSwapCache [1, 2, 3] 2 2) 0 3 10).getD
        default).1.swap :=
  ⟨⟨by decide, by decide,
    c8_map_bijection_invariant.1 [1, 2, 3] 2 2 (by decide) (by decide)⟩,
   c8_map_bijection_invariant.2.1 Unit Unit (mkSwapCache [1, 2, 3] 2 2)
     (RBound.incl 0) (RBound.excl 3) (fun s _ => (s, none)) () 10 _
     (by decide) (by rfl),
   c8_map_bijection_invariant.2.2 (mkSwapCache [1, 2, 3] 2 2) 0 3 10 _
     (by decide) (by rfl)⟩

/-- C9 counterexample: at `L = pos = 2^64 - 1` (a valid `u64` length)
and `Current(2)`, the `u64` addition `self.pos + offset as u64` wraps,
so `seek` returns 1 while `clamp(pos + 2, 0, L) = L = 2^64 - 1`. -/
theorem c9_seek_overflow_cex :
    cacheReaderSeek (2 ^ 64 - 1) (2 ^ 64 - 1) (SeekFrom.current 2) = 1 ∧
    (1 : Nat) ≠ specClamp ((2 ^ 64 - 1 : Int) + 2) (2 ^ 64 - 1) := by
  constructor
  · rfl
  · decide

/-- C9 (amended): `CacheReader::seek` never fails, and for every
starting position `pos ≤ L` it returns the saturated position —
`Start(o) ↦ min(o, L)`, `Current(o) ↦ clamp(pos + o, 0, L)`,
`End(o) ↦ clamp(L + o, 0, L)` — provided that for `Current` with a
nonnegative offset the `u64` addition `pos + o` does not overflow
(`pos + o < 2^64`); on overflow the sum wraps modulo `2^64` before
clamping. -/
theorem c9_seek_clamp_amended (len pos : Nat) (f : SeekFrom)
    (hpos : pos ≤ len)
    (hov : ∀ o : Int, f = SeekFrom.current o → 0 ≤ o →
      pos + o.toNat < 2 ^ 64) :
    cacheReaderSeek len pos f =
      match f with
      | .start o => min o len
      | .current o => specClamp (pos + o) len
      | .fromEnd o => specClamp (len + o) len := by
  cases f with
  | start o =>
    simp only [cacheReaderSeek]
    split_ifs <;> omega
  | current o =>
    simp only [cacheReaderSeek, specClamp]
    by_cases ho : o < 0
    · rw [if_pos ho]
      split_ifs <;> omega
    · rw [if_neg ho]
      have hov2 : pos + o.toNat < 2 ^ 64 := hov o rfl (by omega)
      rw [Nat.mod_eq_of_lt hov2]
      split_ifs <;> omega
  | fromEnd o =>
    simp only [cacheReaderSeek, specClamp]
    by_cases ho : o < 0
    · rw [if_pos ho]
      split_ifs <;> omega
    · rw [if_neg ho]
      omega

/-- C9 witness: seeking `Current(7)` from position 5 in a 10-byte cache
lands on `clamp(5 + 7, 0, 10) = 10`. -/
theorem c9_seek_clamp_amended_witness :
    (5 : Nat) ≤ 10 ∧
    cacheReaderSeek 10 5 (SeekFrom.current 7) = specClamp ((5 : Int) + 7) 10 :=
  ⟨by decide,
   c9_seek_clamp_amended 10 5 (SeekFrom.current 7) (by decide)
     (fun o ho h0 => by
       injection ho with h
       subst h
       decide)⟩

/-- C10: `SwapCache::new` discovers the length (seek to end) before
validating `page_size` and `frame_count`: with a source whose
seek-to-end fails, `SwapCache::new(source, 0, n)` returns the I/O error
and not `ZeroCache`; conversely a `ZeroCache` error is only ever
returned after that seek succeeded. -/
theorem c10_seek_end_before_validation :
    (∀ (src : Source) (n : Nat), src.seekEndOk = false →
      SwapCache.new src 0 n = Except.error CacheErr.io) ∧
    (∀ (src : Source) (ps fc : Nat) (msg : String),
      SwapCache.new src ps fc = Except.error (CacheErr.zeroCache msg) →
      src.seekEndOk = true) := by
  constructor
  · intro src n h
    rw [SwapCache.new, h]
    rfl
  · intro src ps fc msg h
    by_cases hs : src.seekEndOk = true
    · exact hs
    · have hf : src.seekEndOk = false := by
        cases hb : src.seekEndOk
        · rfl
        · exact absurd hb hs
      rw [SwapCache.new, hf] at h
      simp at h

/-- C10 witness: a source whose seek-to-end fails makes
`SwapCache::new(source, 0, 3)` return the I/O error, and a `ZeroCache`
error produced with zero page size implies the seek succeeded. -/
theorem c10_seek_end_before_validation_witness :
    SwapCache.new ⟨[], false, true, true⟩ 0 3 = Except.error CacheErr.io ∧
    (⟨[0], true, true, true⟩ : Source).seekEndOk = true :=
  ⟨c10_seek_end_before_validation.1 ⟨[], false, true, true⟩ 3 rfl,
   c10_seek_end_before_validation.2 ⟨[0], true, true, true⟩ 0 3
     "swap cache configured with zero pages" (by rfl)⟩

end FileCache
